import Mathlib

/-!
# Verification of the Telegram message cleaning and aggregation pipeline

Shallow embedding of `script/data_cleaner.py` and `script/data_cleaning.py`.
Python strings are modelled as `List Char` (sequences of Unicode code points);
a dataframe column operation is modelled record-wise over a `List` batch.
Fallible Python code (code that can raise) returns `Except PyErr`.
-/

/-- Exceptions raised by the embedded Python code. -/
inductive PyErr
  | typeError
  | indexError
deriving DecidableEq, Repr

/-! ## Character classes

`isPySpace` models both the characters matched by Python's regex `\s` and
the characters `str.split()` / `str.strip()` split on (`str.isspace()`);
the two sets coincide on all code points relevant here. -/

/-- The whitespace code points of Python's `\s` / `str.isspace()`. -/
def pySpaceChars : List Char :=
  [' ', '\t', '\n', '\r', '\x0b', '\x0c',
   '\x1c', '\x1d', '\x1e', '\x1f', '\x85', '\xa0',
   ' ', ' ', ' ', ' ', ' ', ' ', ' ',
   ' ', ' ', ' ', ' ', ' ',
   ' ', ' ', ' ', ' ', '　']

/-- Whitespace test (Python `\s` / `str.isspace`). -/
def isPySpace (c : Char) : Bool := decide (c ∈ pySpaceChars)

/-- Ethiopic block membership: the `ሀ-፿` range of the script filter. -/
def isAmharicChar (c : Char) : Bool := decide (0x1200 ≤ c.toNat ∧ c.toNat ≤ 0x137F)

/-- ASCII digit, the `0-9` range of the script filter. -/
def isAsciiDigit (c : Char) : Bool := decide (0x30 ≤ c.toNat ∧ c.toNat ≤ 0x39)

/-- Membership in the `emoji` library's `EMOJI_DATA` code-point set.  The set
itself lives in a third-party package, outside this repository; it is modelled
as the major Unicode emoji blocks (symbols, dingbats, arrows-supplement and the
`U+1Fxxx` emoji planes).  None of these blocks intersect the Ethiopic block,
ASCII digits, or whitespace, which is the only fact the proofs rely on. -/
def isEmojiChar (c : Char) : Bool :=
  decide ((0x1F000 ≤ c.toNat ∧ c.toNat ≤ 0x1FAFF) ∨
          (0x2600 ≤ c.toNat ∧ c.toNat ≤ 0x27BF) ∨
          (0x2300 ≤ c.toNat ∧ c.toNat ≤ 0x23FF) ∨
          (0x2B00 ≤ c.toNat ∧ c.toNat ≤ 0x2BFF))

/-- A character kept by `remove_non_amharic_characters`
(regex `[^ሀ-፿0-9\s]` is substituted by the empty string). -/
def keepChar (c : Char) : Bool := isAmharicChar c || isAsciiDigit c || isPySpace c

/-! ## normalize_amharic_text -/

/-- The `amharic_diacritics_map` dict literal of `clean_text_pipeline`,
in insertion order. -/
def amharicDiacriticsMap : List (Char × Char) :=
  [('ኀ', 'ሀ'), ('ኁ', 'ሁ'), ('ኂ', 'ሂ'), ('ኃ', 'ሀ'), ('ኄ', 'ሄ'), ('ኅ', 'ህ'), ('ኆ', 'ሆ'),
   ('ሐ', 'ሀ'), ('ሑ', 'ሁ'), ('ሒ', 'ሂ'), ('ሓ', 'ሀ'), ('ሔ', 'ሄ'), ('ሕ', 'ህ'), ('ሖ', 'ሆ'),
   ('ሠ', 'ሰ'), ('ሡ', 'ሱ'), ('ሢ', 'ሲ'), ('ሣ', 'ሳ'), ('ሤ', 'ሴ'), ('ሥ', 'ስ'), ('ሦ', 'ሶ'),
   ('ዐ', 'አ'), ('ዑ', 'ኡ'), ('ዒ', 'ኢ'), ('ዓ', 'አ'), ('ዔ', 'ኤ'), ('ዕ', 'እ'), ('ዖ', 'ኦ'),
   ('ኣ', 'አ')]

/-- One `text.replace(diacritic, base)` step.  Both pattern and replacement are
single characters, so Python's `str.replace` is the character-wise map. -/
def replaceChar (text : List Char) (p : Char × Char) : List Char :=
  text.map fun c => if c = p.1 then p.2 else c

/-- `normalize_amharic_text`: the `for diacritic, base_char in
diacritics_map.items(): text = text.replace(diacritic, base_char)` loop,
iterating the dict in insertion order.  (String branch; the non-string guard
of the Python function is modelled at the pipeline level.) -/
def normalize_amharic_text (text : List Char) : List Char :=
  amharicDiacriticsMap.foldl replaceChar text

/-- The per-character effect of the whole diacritics loop. -/
def foldDiacritics (c : Char) : Char :=
  amharicDiacriticsMap.foldl (fun a p => if a = p.1 then p.2 else a) c

/-! ## The remaining text transforms of data_cleaner.py -/

/-- `remove_non_amharic_characters`: `re.sub` of `[^ሀ-፿0-9\s]`
with the empty string deletes every character outside the kept classes. -/
def remove_non_amharic_characters (text : List Char) : List Char :=
  text.filter keepChar

/-- `remove_emojis` (the second, character-set definition in the file, which
shadows the earlier regex-range definition at module level):
`''.join(c for c in text if c not in emoji.EMOJI_DATA)`. -/
def remove_emojis (text : List Char) : List Char :=
  text.filter fun c => !(isEmojiChar c)

/-- `extract_emojis`: `''.join(c for c in text if c in emoji.EMOJI_DATA)`,
returning the sentinel when nothing was collected. -/
def extract_emojis (text : List Char) : List Char :=
  let emojis := text.filter isEmojiChar
  if emojis.isEmpty then "No emoji".data else emojis

/-- `remove_repeated_characters`: `re.sub(r'(.)\1+', r'\1', text)`.  Each
maximal run of 2+ identical characters collapses to one occurrence; `.` does
not match a newline, so runs of `'\n'` are kept. -/
def remove_repeated_characters : List Char → List Char
  | [] => []
  | [c] => [c]
  | c :: d :: rest =>
    if c = d ∧ c ≠ '\n' then remove_repeated_characters (d :: rest)
    else c :: remove_repeated_characters (d :: rest)

/-- Non-whitespace test, the regex `\S`. -/
def nonSpace (c : Char) : Bool := !(isPySpace c)

/-- The `\S+` tail of the `remove_urls` patterns: at least one non-space
character after the literal prefix; on success return the text after the
greedy non-space run. -/
def dropUrlTail (cs : List Char) : Option (List Char) :=
  if (cs.takeWhile nonSpace).isEmpty then none else some (cs.dropWhile nonSpace)

/-- A match of `http\S+|www\S+` anchored at the head of the text, returning
the suffix after the match. -/
def matchUrlR (cs : List Char) : Option (List Char) :=
  match cs with
  | 'h' :: 't' :: 't' :: 'p' :: rest => dropUrlTail rest
  | 'w' :: 'w' :: 'w' :: rest => dropUrlTail rest
  | _ => none

/-- Scanner for `re.sub(r'http\S+|www\S+', '', text)`: leftmost
non-overlapping matches are deleted, scanning resumes after each match.
Each step consumes at least one character, so `text.length` fuel is exact. -/
def removeUrlsF : Nat → List Char → List Char
  | 0, cs => cs
  | _ + 1, [] => []
  | fuel + 1, c :: t =>
    match matchUrlR (c :: t) with
    | some r => removeUrlsF fuel r
    | none => c :: removeUrlsF fuel t

/-- `remove_urls`: `re.sub(r'http\S+|www\S+', '', text)`. -/
def remove_urls (text : List Char) : List Char :=
  removeUrlsF text.length text

/-- `str.split()` accumulator: current (reversed) word plus remaining input;
splits on whitespace runs and never yields empty tokens. -/
def pySplitAux : List Char → List Char → List (List Char)
  | [], acc => if acc.isEmpty then [] else [acc.reverse]
  | c :: rest, acc =>
    if isPySpace c then
      if acc.isEmpty then pySplitAux rest [] else acc.reverse :: pySplitAux rest []
    else pySplitAux rest (c :: acc)

/-- Python `text.split()` (no separator argument). -/
def pySplit (cs : List Char) : List (List Char) := pySplitAux cs []

/-- `sep.join(words)`. -/
def joinSep (sep : List Char) : List (List Char) → List Char
  | [] => []
  | [w] => w
  | w :: ws => w ++ sep ++ joinSep sep ws

/-- Python `str.strip()`: drop leading and trailing whitespace. -/
def pyStrip (cs : List Char) : List Char :=
  ((cs.dropWhile isPySpace).reverse.dropWhile isPySpace).reverse

/-- `normalize_spaces`: `' '.join(text.split()).strip()`. -/
def normalize_spaces (text : List Char) : List Char :=
  pyStrip (joinSep [' '] (pySplit text))

/-- The cleaning chain of `clean_text_pipeline` after the emptiness guard,
in source order (the `remove_punctuation` and `remove_numbers` steps are
commented out in the source). -/
def cleanChain (text : List Char) : List Char :=
  normalize_spaces (remove_urls (remove_repeated_characters (remove_emojis
    (remove_non_amharic_characters (normalize_amharic_text text)))))

/-- `clean_text_pipeline` on a string: `if not text: return ""` and then the
chain of cleaning steps. -/
def clean_text_pipeline (s : String) : String :=
  if s.data.isEmpty then "" else String.mk (cleanChain s.data)

/-! ## Dynamically typed view of clean_text_pipeline

`clean_text_pipeline` is called with arbitrary column values, so the embedding
also records what the Python function does on non-string input. -/

/-- A Python value reaching the text pipeline: a string, an int, or `None`. -/
inductive PyVal
  | str (cs : List Char)
  | int (n : Int)
  | noneV
deriving DecidableEq, Repr

/-- Python truthiness of a `PyVal` (`bool(v)`). -/
def PyVal.truthy : PyVal → Bool
  | .str cs => !cs.isEmpty
  | .int n => n ≠ 0
  | .noneV => false

/-- `clean_text_pipeline` over an arbitrary value.  `if not text: return ""`
short-circuits every falsy value to the empty string.  A truthy non-string
passes unchanged through `normalize_amharic_text` (its `isinstance` guard
returns the input), and then `re.sub` inside `remove_non_amharic_characters`
raises `TypeError` (`expected string or bytes-like object`). -/
def clean_text_pipeline_py (v : PyVal) : Except PyErr PyVal :=
  if v.truthy = false then .ok (.str [])
  else
    match v with
    | .str cs => .ok (.str (cleanChain cs))
    | _ => .error .typeError

/-! ## Link extraction (data_cleaning.py extract_links, data_cleaner.py
extract_youtube_links) -/

/-- A match of `https?://\S+|www\.\S+` anchored at the head of the text:
returns the matched substring and the suffix after it. -/
def matchUrlG (cs : List Char) : Option (List Char × List Char) :=
  match cs with
  | 'h' :: 't' :: 't' :: 'p' :: 's' :: ':' :: '/' :: '/' :: rest =>
    if (rest.takeWhile nonSpace).isEmpty then none
    else some ("https://".data ++ rest.takeWhile nonSpace, rest.dropWhile nonSpace)
  | 'h' :: 't' :: 't' :: 'p' :: ':' :: '/' :: '/' :: rest =>
    if (rest.takeWhile nonSpace).isEmpty then none
    else some ("http://".data ++ rest.takeWhile nonSpace, rest.dropWhile nonSpace)
  | 'w' :: 'w' :: 'w' :: '.' :: rest =>
    if (rest.takeWhile nonSpace).isEmpty then none
    else some ("www.".data ++ rest.takeWhile nonSpace, rest.dropWhile nonSpace)
  | _ => none

/-- `re.findall` scanner for the general URL pattern: collect leftmost
non-overlapping matches.  Fuel is bounded by the text length; every step
consumes at least one character. -/
def findallUrlsF : Nat → List Char → List (List Char)
  | 0, _ => []
  | _ + 1, [] => []
  | fuel + 1, c :: t =>
    match matchUrlG (c :: t) with
    | some (m, r) => m :: findallUrlsF fuel r
    | none => findallUrlsF fuel t

/-- `re.findall(r'(https?://\S+|www\.\S+)', message)`. -/
def findall_urls (cs : List Char) : List (List Char) := findallUrlsF cs.length cs

/-- `TelegramDataCleaningPipeline.extract_links`: non-strings yield the empty
match list, and a falsy match list is returned as `None`. -/
def extract_links (message : PyVal) : Option (List (List Char)) :=
  let links := match message with
    | .str cs => findall_urls cs
    | _ => []
  if links.isEmpty then none else some links

/-- The host alternative `(?:youtube\.com|youtu\.be)` anchored at the head. -/
def matchYtHost (cs : List Char) : Option (List Char × List Char) :=
  match cs with
  | 'y' :: 'o' :: 'u' :: 't' :: 'u' :: 'b' :: 'e' :: '.' :: 'c' :: 'o' :: 'm' :: rest =>
    some ("youtube.com".data, rest)
  | 'y' :: 'o' :: 'u' :: 't' :: 'u' :: '.' :: 'b' :: 'e' :: rest =>
    some ("youtu.be".data, rest)
  | _ => none

/-- After the host: a literal `/` and then `[^\s]+`. -/
def matchYtPath (pfx : List Char) (cs : List Char) : Option (List Char × List Char) :=
  match matchYtHost cs with
  | some (host, rest) =>
    match rest with
    | '/' :: rest2 =>
      if (rest2.takeWhile nonSpace).isEmpty then none
      else some (pfx ++ host ++ '/' :: rest2.takeWhile nonSpace, rest2.dropWhile nonSpace)
    | _ => none
  | none => none

/-- The optional `(?:www\.)?` part of the YouTube pattern. -/
def matchYtWww (pfx : List Char) (cs : List Char) : Option (List Char × List Char) :=
  match cs with
  | 'w' :: 'w' :: 'w' :: '.' :: rest => matchYtPath (pfx ++ "www.".data) rest
  | _ => matchYtPath pfx cs

/-- A match of `https?://(?:www\.)?(?:youtube\.com|youtu\.be)/[^\s]+`
anchored at the head of the text. -/
def matchYt (cs : List Char) : Option (List Char × List Char) :=
  match cs with
  | 'h' :: 't' :: 't' :: 'p' :: 's' :: ':' :: '/' :: '/' :: rest =>
    matchYtWww "https://".data rest
  | 'h' :: 't' :: 't' :: 'p' :: ':' :: '/' :: '/' :: rest =>
    matchYtWww "http://".data rest
  | _ => none

/-- `re.findall` scanner for the YouTube pattern. -/
def findallYtF : Nat → List Char → List (List Char)
  | 0, _ => []
  | _ + 1, [] => []
  | fuel + 1, c :: t =>
    match matchYt (c :: t) with
    | some (m, r) => m :: findallYtF fuel r
    | none => findallYtF fuel t

/-- `re.findall` of the YouTube pattern over the whole text. -/
def findall_yt (cs : List Char) : List (List Char) := findallYtF cs.length cs

/-- `extract_youtube_links`: `', '.join(links) if links else "No YouTube link"`. -/
def extract_youtube_links (text : List Char) : List Char :=
  let links := findall_yt text
  if links.isEmpty then "No YouTube link".data else joinSep ", ".data links

/-! ## The record batch of data_cleaning.py

One row of the raw dataframe.  Nullable columns are `Option`; a pandas null
(`None`/`NaN`) is `none`. -/

structure TgRecord where
  message_id : Option Int
  message_text : Option String
  sender_id : Option String
  channel : Option String
  message_date : Option String
  media_path : Option String
  links : Option (List String)
  group_id : Option Int
deriving DecidableEq, Repr

/-- `df.drop_duplicates(subset=['message_id'], keep='first')`, record-wise:
keep a row iff its `message_id` has not been seen earlier in the batch
(pandas treats nulls in the subset as equal to each other). -/
def dedupGo (seen : List (Option Int)) : List TgRecord → List TgRecord
  | [] => []
  | r :: rest =>
    if r.message_id ∈ seen then dedupGo seen rest
    else r :: dedupGo (r.message_id :: seen) rest

/-- `TelegramDataCleaningPipeline.remove_duplicates`. -/
def remove_duplicates (batch : List TgRecord) : List TgRecord := dedupGo [] batch

/-- A filesystem operation against the media store. -/
inductive MediaOp
  | deleteAttempt (path : String)
deriving DecidableEq, Repr

/-- `remove_duplicates` together with the trace of media-store operations it
performs.  The body of the source function is `df.drop_duplicates(...)` plus
one `logger.info` call: it touches no files, so the trace is empty for every
batch. -/
def remove_duplicates_effects (batch : List TgRecord) : List TgRecord × List MediaOp :=
  (remove_duplicates batch, [])

/-! ## handle_missing_values -/

/-- A value in the `df.fillna({...})` dict: a scalar or a list. -/
inductive FillVal
  | scalar (s : String)
  | listVal (l : List String)
deriving DecidableEq, Repr

/-- One `Series.fillna(v)` call on a named column.  pandas rejects a list
fill value with `TypeError: "value" parameter must be a scalar or dict, but
you passed a "list"`; a scalar fills the nulls of that column. -/
def fillColumn (batch : List TgRecord) (col : String) (v : FillVal) :
    Except PyErr (List TgRecord) :=
  match v with
  | .listVal _ => .error .typeError
  | .scalar s => .ok (batch.map fun r =>
      if col = "sender_id" then { r with sender_id := some (r.sender_id.getD s) }
      else if col = "message_text" then { r with message_text := some (r.message_text.getD s) }
      else if col = "media_path" then { r with media_path := some (r.media_path.getD s) }
      else r)

/-- `TelegramDataCleaningPipeline.handle_missing_values`:
`df.fillna({'sender_id': 'Unknown Sender', 'message_text': 'No Text',
'media_path': 'No Media', 'links': []}, inplace=True)` delegates to
`Series.fillna` column by column in dict insertion order, then
`df.dropna(subset=['message_id', 'message_date'], inplace=True)`. -/
def handle_missing_values (batch : List TgRecord) : Except PyErr (List TgRecord) := do
  let b1 ← fillColumn batch "sender_id" (.scalar "Unknown Sender")
  let b2 ← fillColumn b1 "message_text" (.scalar "No Text")
  let b3 ← fillColumn b2 "media_path" (.scalar "No Media")
  let b4 ← fillColumn b3 "links" (.listVal [])
  pure (b4.filter fun r => r.message_id.isSome && r.message_date.isSome)

/-! ## aggregate_group_messages -/

/-- The grouping key: `if 'group_id' not in df.columns: df['group_id'] =
df['message_id']`, then `groupby('group_id')`.  `hasGroupCol` records whether
the batch carries a `group_id` column. -/
def aggKey (hasGroupCol : Bool) (r : TgRecord) : Option Int :=
  if hasGroupCol then r.group_id else r.message_id

/-- The distinct group keys in ascending order: pandas `groupby` drops null
keys (`dropna=True`) and sorts the groups by key (`sort=True`), both
defaults. -/
def sortedKeys (h : Bool) (batch : List TgRecord) : List Int :=
  List.insertionSort (· ≤ ·) (batch.filterMap (aggKey h)).dedup

/-- The rows of one group, in original batch order. -/
def groupMembers (h : Bool) (batch : List TgRecord) (g : Int) : List TgRecord :=
  batch.filter fun r => aggKey h r = some g

/-- The pandas `'first'` aggregator: the first non-null value of the group. -/
def firstNonNull {α : Type} (xs : List (Option α)) : Option α :=
  (xs.filterMap id).head?

/-- The `media_path` reducer `lambda x: [path for path in x if path and
path != 'No Media']`: keep the truthy paths (non-null and non-empty) that
differ from the sentinel, in encounter order. -/
def mediaAgg (xs : List (Option String)) : List String :=
  xs.filterMap fun p =>
    match p with
    | some s => if s ≠ "" ∧ s ≠ "No Media" then some s else none
    | none => none

/-- `sum(x, [])`: left fold of `+` starting from `[]`; adding a non-list
(for example `None`) raises `TypeError`. -/
def pySumLinks (xs : List (Option (List String))) : Except PyErr (List String) :=
  List.foldlM
    (fun acc o =>
      match o with
      | some l => Except.ok (acc ++ l)
      | none => Except.error PyErr.typeError)
    [] xs

/-- The `links` reducer `lambda x: sum(x, []) if isinstance(x.iloc[0], list)
else []`.  `x.iloc[0]` on an empty group raises `IndexError` (groups produced
by `groupby` are never empty). -/
def linksAgg (xs : List (Option (List String))) : Except PyErr (List String) :=
  match xs with
  | [] => .error .indexError
  | first :: _ =>
    match first with
    | some _ => pySumLinks xs
    | none => .ok []

/-- One aggregated row, after `reset_index()`. -/
structure AggRow where
  group_id : Int
  message_id : List (Option Int)
  message_text : Option String
  sender_id : Option String
  channel : Option String
  message_date : Option String
  media_path : List String
  links : List String
deriving DecidableEq, Repr

/-- The aggregated row of one group: the `.agg({...})` reducer dict applied
to the group's rows in batch order. -/
def buildRow (h : Bool) (batch : List TgRecord) (g : Int) : Except PyErr AggRow :=
  let xs := groupMembers h batch g
  match linksAgg (xs.map (·.links)) with
  | .error e => .error e
  | .ok lk =>
    .ok { group_id := g
          message_id := xs.map (·.message_id)
          message_text := firstNonNull (xs.map (·.message_text))
          sender_id := firstNonNull (xs.map (·.sender_id))
          channel := firstNonNull (xs.map (·.channel))
          message_date := firstNonNull (xs.map (·.message_date))
          media_path := mediaAgg (xs.map (·.media_path))
          links := lk }

/-- Aggregated rows for a list of group keys; an exception in any reducer
aborts the whole aggregation. -/
def buildRows (h : Bool) (batch : List TgRecord) : List Int → Except PyErr (List AggRow)
  | [] => .ok []
  | g :: gs =>
    match buildRow h batch g with
    | .error e => .error e
    | .ok row =>
      match buildRows h batch gs with
      | .error e => .error e
      | .ok rest => .ok (row :: rest)

/-- `TelegramDataCleaningPipeline.aggregate_group_messages`. -/
def aggregate_group_messages (h : Bool) (batch : List TgRecord) :
    Except PyErr (List AggRow) :=
  buildRows h batch (sortedKeys h batch)

/-! ## Helper lemmas: deduplication -/

theorem dedupGo_sublist (seen : List (Option Int)) (l : List TgRecord) :
    List.Sublist (dedupGo seen l) l := by
  induction l generalizing seen with
  | nil => simp [dedupGo]
  | cons r rest ih =>
    unfold dedupGo
    by_cases h : r.message_id ∈ seen
    · simp only [if_pos h]
      exact (ih seen).cons r
    · simp only [if_neg h]
      exact (ih (r.message_id :: seen)).cons₂ r

theorem dedupGo_not_mem_seen (seen : List (Option Int)) (l : List TgRecord) :
    ∀ i ∈ (dedupGo seen l).map (·.message_id), i ∉ seen := by
  induction l generalizing seen with
  | nil => simp [dedupGo]
  | cons r rest ih =>
    unfold dedupGo
    by_cases h : r.message_id ∈ seen
    · simpa only [if_pos h] using ih seen
    · simp only [if_neg h, List.map_cons, List.mem_cons]
      rintro i (rfl | hi)
      · exact h
      · exact fun hs => ih (r.message_id :: seen) i hi (List.mem_cons_of_mem _ hs)

theorem dedupGo_nodup (seen : List (Option Int)) (l : List TgRecord) :
    ((dedupGo seen l).map (·.message_id)).Nodup := by
  induction l generalizing seen with
  | nil => simp [dedupGo]
  | cons r rest ih =>
    unfold dedupGo
    by_cases h : r.message_id ∈ seen
    · simpa only [if_pos h] using ih seen
    · simp only [if_neg h, List.map_cons, List.nodup_cons]
      refine ⟨fun hmem => ?_, ih (r.message_id :: seen)⟩
      exact dedupGo_not_mem_seen (r.message_id :: seen) rest _ hmem (List.mem_cons_self _ _)

theorem dedupGo_mem_iff (seen : List (Option Int)) (l : List TgRecord)
    (i : Option Int) :
    i ∈ (dedupGo seen l).map (·.message_id) ↔
      i ∈ l.map (·.message_id) ∧ i ∉ seen := by
  induction l generalizing seen with
  | nil => simp [dedupGo]
  | cons r rest ih =>
    unfold dedupGo
    by_cases h : r.message_id ∈ seen
    · simp only [if_pos h, ih, List.map_cons, List.mem_cons]
      constructor
      · rintro ⟨hi, hs⟩; exact ⟨Or.inr hi, hs⟩
      · rintro ⟨(rfl | hi), hs⟩
        · exact absurd h hs
        · exact ⟨hi, hs⟩
    · simp only [if_neg h, List.map_cons, List.mem_cons, ih, List.mem_cons,
        not_or]
      constructor
      · rintro (rfl | ⟨hi, hne, hs⟩)
        · exact ⟨Or.inl rfl, h⟩
        · exact ⟨Or.inr hi, hs⟩
      · rintro ⟨(rfl | hi), hs⟩
        · exact Or.inl rfl
        · by_cases hir : i = r.message_id
          · exact Or.inl hir
          · exact Or.inr ⟨hi, hir, hs⟩

theorem dedupGo_first_occ (seen : List (Option Int)) (l : List TgRecord) :
    ∀ r ∈ dedupGo seen l,
      l.find? (fun x => decide (x.message_id = r.message_id)) = some r := by
  induction l generalizing seen with
  | nil => simp [dedupGo]
  | cons r0 rest ih =>
    unfold dedupGo
    by_cases h : r0.message_id ∈ seen
    · simp only [if_pos h]
      intro r hr
      have hrs : r.message_id ∉ seen :=
        dedupGo_not_mem_seen seen rest r.message_id (List.mem_map_of_mem _ hr)
      have hne : ¬(r0.message_id = r.message_id) := fun he => hrs (he ▸ h)
      rw [List.find?_cons_of_neg _ (by simpa using hne)]
      exact ih seen r hr
    · simp only [if_neg h, List.mem_cons]
      rintro r (rfl | hr)
      · rw [List.find?_cons_of_pos _ (by simp)]
      · have hrs : r.message_id ∉ r0.message_id :: seen :=
          dedupGo_not_mem_seen _ rest r.message_id (List.mem_map_of_mem _ hr)
        have hne : ¬(r0.message_id = r.message_id) := by
          intro he
          exact hrs (he ▸ List.mem_cons_self _ _)
        rw [List.find?_cons_of_neg _ (by simpa using hne)]
        exact ih (r0.message_id :: seen) r hr

/-- C4: deduplication keeps exactly the first occurrence (in batch order) of
each distinct `message_id`: the output is a sublist of the batch (relative
order preserved), its ids are pairwise distinct, every input id survives, and
every kept record is the first record of the batch carrying its id. -/
theorem remove_duplicates_keeps_first_occurrences (batch : List TgRecord) :
    List.Sublist (remove_duplicates batch) batch ∧
    ((remove_duplicates batch).map (·.message_id)).Nodup ∧
    (∀ i : Option Int,
      i ∈ (remove_duplicates batch).map (·.message_id) ↔
        i ∈ batch.map (·.message_id)) ∧
    (∀ r ∈ remove_duplicates batch,
      batch.find? (fun x => decide (x.message_id = r.message_id)) = some r) := by
  refine ⟨dedupGo_sublist [] batch, dedupGo_nodup [] batch, fun i => ?_,
    dedupGo_first_occ [] batch⟩
  rw [remove_duplicates, dedupGo_mem_iff]
  simp

/-- C4 witness: a concrete batch with a repeated id, instantiating the
first-occurrence clause. -/
theorem remove_duplicates_keeps_first_occurrences_witness :
    (⟨some 1, some "a", none, none, some "d", none, none, none⟩ : TgRecord) ∈
      remove_duplicates
        [⟨some 1, some "a", none, none, some "d", none, none, none⟩,
         ⟨some 1, some "b", none, none, some "d", none, none, none⟩,
         ⟨some 2, some "c", none, none, some "d", none, none, none⟩] ∧
    List.find?
        (fun x => decide (x.message_id =
          (⟨some 1, some "a", none, none, some "d", none, none, none⟩ :
            TgRecord).message_id))
        ([⟨some 1, some "a", none, none, some "d", none, none, none⟩,
          ⟨some 1, some "b", none, none, some "d", none, none, none⟩,
          ⟨some 2, some "c", none, none, some "d", none, none, none⟩] :
            List TgRecord) =
      some ⟨some 1, some "a", none, none, some "d", none, none, none⟩ :=
  ⟨by decide,
   (remove_duplicates_keeps_first_occurrences _).2.2.2 _ (by decide)⟩

/-- C2 counterexample: a batch with one removed duplicate (`k = 2`
occurrences, one distinct id).  The claim demands `k - distinct_count = 1`
media-deletion attempts, but duplicate removal performs none: its effect
trace on the media store is empty. -/
theorem remove_duplicates_deletion_count_cex :
    (remove_duplicates_effects
        [⟨some 1, some "a", none, none, some "d", none, none, none⟩,
         ⟨some 1, some "b", none, none, some "d", none, none, none⟩]).2.length ≠
      ([⟨some 1, some "a", none, none, some "d", none, none, none⟩,
        ⟨some 1, some "b", none, none, some "d", none, none, none⟩] :
          List TgRecord).length -
        (remove_duplicates_effects
          [⟨some 1, some "a", none, none, some "d", none, none, none⟩,
           ⟨some 1, some "b", none, none, some "d", none, none, none⟩]).1.length := by
  decide

/-- C2 amended: deduplication keeps one record per distinct `message_id`
(so `k - distinct_count` records are removed) but makes no deletion attempts
against the media store at all — the record-batch result never depends on any
filesystem outcome because no filesystem operation occurs. -/
theorem remove_duplicates_no_deletion_attempts (batch : List TgRecord) :
    (remove_duplicates_effects batch).1 = remove_duplicates batch ∧
    (remove_duplicates_effects batch).2 = [] ∧
    (remove_duplicates_effects batch).1.length =
      (batch.map (·.message_id)).dedup.length := by
  refine ⟨rfl, rfl, ?_⟩
  have hnd : ((remove_duplicates batch).map (·.message_id)).Nodup :=
    dedupGo_nodup [] batch
  have hmem : ∀ i, i ∈ (remove_duplicates batch).map (·.message_id) ↔
      i ∈ batch.map (·.message_id) := by
    intro i
    rw [remove_duplicates, dedupGo_mem_iff]
    simp
  have hfin : ((remove_duplicates batch).map (·.message_id)).toFinset =
      (batch.map (·.message_id)).toFinset := by
    apply Finset.ext
    intro i
    simpa using hmem i
  calc (remove_duplicates_effects batch).1.length
      = ((remove_duplicates batch).map (·.message_id)).length := by
        simp [remove_duplicates_effects]
    _ = ((remove_duplicates batch).map (·.message_id)).toFinset.card :=
        (List.toFinset_card_of_nodup hnd).symm
    _ = (batch.map (·.message_id)).toFinset.card := by rw [hfin]
    _ = (batch.map (·.message_id)).dedup.length := List.card_toFinset _

/-! ## C7: handle_missing_values -/

/-- C7 (code bug): `handle_missing_values` never fills or drops anything —
for every batch it raises `TypeError`, because the `'links': []` entry of the
`fillna` dict is a list fill value, which pandas `Series.fillna` rejects. -/
theorem handle_missing_values_always_raises (batch : List TgRecord) :
    handle_missing_values batch = .error .typeError := rfl

/-! ## C3: totality of the text normalizer -/

/-- C3 counterexample: the pipeline is not total and does not return
non-string input unchanged.  The truthy non-string `5` raises `TypeError`
(inside `remove_non_amharic_characters`), and the falsy non-string `None`
comes back as `""`, not as `None`. -/
theorem clean_text_pipeline_py_not_total :
    clean_text_pipeline_py (.int 5) = .error .typeError ∧
    clean_text_pipeline_py .noneV = .ok (.str []) ∧
    (PyVal.str [] : PyVal) ≠ .noneV :=
  ⟨rfl, rfl, by decide⟩

/-- C3 amended: the empty string returns the empty string without invoking
the chain, as does every falsy value (`None`, `0`); a truthy non-string is
not returned unchanged but raises `TypeError`, because only the diacritic
step guards non-string input.  Strings run the full chain. -/
theorem clean_text_pipeline_py_behavior :
    clean_text_pipeline_py (.str []) = .ok (.str []) ∧
    (∀ v : PyVal, v.truthy = false → clean_text_pipeline_py v = .ok (.str [])) ∧
    (∀ n : Int, n ≠ 0 → clean_text_pipeline_py (.int n) = .error .typeError) ∧
    (∀ cs : List Char, cs ≠ [] →
      clean_text_pipeline_py (.str cs) = .ok (.str (cleanChain cs))) := by
  refine ⟨rfl, fun v hv => ?_, fun n hn => ?_, fun cs hcs => ?_⟩
  · simp [clean_text_pipeline_py, hv]
  · simp [clean_text_pipeline_py, PyVal.truthy, hn]
  · simp [clean_text_pipeline_py, PyVal.truthy, hcs]

/-- C3 witness: concrete instantiations of the amended clauses. -/
theorem clean_text_pipeline_py_behavior_witness :
    clean_text_pipeline_py (.int 0) = .ok (.str []) ∧
    clean_text_pipeline_py (.int 7) = .error .typeError ∧
    clean_text_pipeline_py (.str "ሀሀ".data) = .ok (.str (cleanChain "ሀሀ".data)) :=
  ⟨clean_text_pipeline_py_behavior.2.1 _ rfl,
   clean_text_pipeline_py_behavior.2.2.1 7 (by decide),
   clean_text_pipeline_py_behavior.2.2.2 _ (by decide)⟩

/-! ## C9: emoji extraction sentinel laws -/

/-- C9: the emoji extractor returns the `"No emoji"` sentinel exactly when
no character of the text is an emoji, returns the emoji characters in
encounter order otherwise, and extracting from stripped text always yields
the sentinel. -/
theorem extract_emojis_sentinel_laws :
    extract_emojis "no emoji here".data = "No emoji".data ∧
    extract_emojis "hi 😀".data = "😀".data ∧
    (∀ cs : List Char, (∀ c ∈ cs, isEmojiChar c = false) →
      extract_emojis cs = "No emoji".data) ∧
    (∀ cs : List Char, cs.filter isEmojiChar ≠ [] →
      extract_emojis cs = cs.filter isEmojiChar) ∧
    (∀ cs : List Char, extract_emojis (remove_emojis cs) = "No emoji".data) := by
  refine ⟨by decide, by decide, fun cs h => ?_, fun cs h => ?_, fun cs => ?_⟩
  · have hnil : cs.filter isEmojiChar = [] :=
      List.filter_eq_nil_iff.mpr (by simpa using h)
    simp [extract_emojis, hnil]
  · simp [extract_emojis, List.isEmpty_iff, h]
  · have hnil : (remove_emojis cs).filter isEmojiChar = [] := by
      apply List.filter_eq_nil_iff.mpr
      intro c hc
      have := List.of_mem_filter hc
      simpa using this
    simp [extract_emojis, hnil]

/-- C9 witness: concrete instantiations of the universally quantified laws. -/
theorem extract_emojis_sentinel_laws_witness :
    extract_emojis "abc".data = "No emoji".data ∧
    extract_emojis "hi 😀".data = "hi 😀".data.filter isEmojiChar ∧
    extract_emojis (remove_emojis "a😀b".data) = "No emoji".data :=
  ⟨extract_emojis_sentinel_laws.2.2.1 _ (by decide),
   extract_emojis_sentinel_laws.2.2.2.1 _ (by decide),
   extract_emojis_sentinel_laws.2.2.2.2 _⟩

/-! ## C8: the two absence encodings of link extraction -/

/-- Is the value a Python `str`? (`isinstance(message, str)`). -/
def PyVal.isStr : PyVal → Bool
  | .str _ => true
  | _ => false

/-- C8: the general extractor returns `None` (never `[]`, never an error)
whenever it finds no match — including on non-string input — and the
YouTube extractor returns the string sentinel on no match and the
comma-joined matches otherwise. -/
theorem link_extractors_absence_encodings :
    (∀ v : PyVal, v.isStr = false → extract_links v = none) ∧
    (∀ cs : List Char, findall_urls cs = [] → extract_links (.str cs) = none) ∧
    (∀ cs : List Char, findall_urls cs ≠ [] →
      extract_links (.str cs) = some (findall_urls cs)) ∧
    (∀ v : PyVal, extract_links v ≠ some []) ∧
    (∀ cs : List Char, findall_yt cs = [] →
      extract_youtube_links cs = "No YouTube link".data) ∧
    (∀ cs : List Char, findall_yt cs ≠ [] →
      extract_youtube_links cs = joinSep ", ".data (findall_yt cs)) := by
  refine ⟨fun v hv => ?_, fun cs h => ?_, fun cs h => ?_, fun v => ?_,
    fun cs h => ?_, fun cs h => ?_⟩
  · cases v with
    | str cs => simp [PyVal.isStr] at hv
    | int n => simp [extract_links]
    | noneV => simp [extract_links]
  · simp [extract_links, h]
  · simp [extract_links, List.isEmpty_iff, h]
  · cases v with
    | str cs =>
      by_cases h : (findall_urls cs).isEmpty
      · simp [extract_links, h]
      · simp only [extract_links, h, if_false]
        intro he
        rw [List.isEmpty_iff] at h
        exact h (by injection he)
    | int n => simp [extract_links]
    | noneV => simp [extract_links]
  · simp [extract_youtube_links, h]
  · simp [extract_youtube_links, List.isEmpty_iff, h]

/-- C8 witness: concrete evaluations — a non-string, a matchless string, a
string with a URL, and YouTube extraction with and without matches. -/
theorem link_extractors_absence_encodings_witness :
    extract_links (.int 3) = none ∧
    extract_links (.str "no links here".data) = none ∧
    extract_links (.str "ስለ https://youtu.be/abc ይመልከቱ".data) =
      some (findall_urls "ስለ https://youtu.be/abc ይመልከቱ".data) ∧
    extract_youtube_links "nothing".data = "No YouTube link".data ∧
    extract_youtube_links "see https://youtu.be/abc now".data =
      joinSep ", ".data (findall_yt "see https://youtu.be/abc now".data) :=
  ⟨link_extractors_absence_encodings.1 _ rfl,
   link_extractors_absence_encodings.2.1 _ (by decide),
   link_extractors_absence_encodings.2.2.1 _ (by decide),
   link_extractors_absence_encodings.2.2.2.2.1 _ (by decide),
   link_extractors_absence_encodings.2.2.2.2.2 _ (by decide)⟩

/-! ## Helper lemmas: aggregation -/

theorem buildRow_ok_fields (h : Bool) (batch : List TgRecord) (g : Int)
    (row : AggRow) (hb : buildRow h batch g = .ok row) :
    row.group_id = g ∧
    row.media_path = mediaAgg ((groupMembers h batch g).map (·.media_path)) ∧
    linksAgg ((groupMembers h batch g).map (·.links)) = .ok row.links := by
  simp only [buildRow] at hb
  split at hb
  · exact absurd hb (by simp)
  · next lk heq =>
    injection hb with h2
    subst h2
    exact ⟨rfl, rfl, heq⟩

theorem buildRows_ok_spec (h : Bool) (batch : List TgRecord) :
    ∀ (gs : List Int) (out : List AggRow), buildRows h batch gs = .ok out →
      out.map (·.group_id) = gs ∧
      ∀ row ∈ out, buildRow h batch row.group_id = .ok row := by
  intro gs
  induction gs with
  | nil =>
    intro out hout
    simp only [buildRows] at hout
    injection hout with h1
    subst h1
    simp
  | cons g gs ih =>
    intro out hout
    simp only [buildRows] at hout
    split at hout
    · exact absurd hout (by simp)
    · next row heqRow =>
      split at hout
      · exact absurd hout (by simp)
      · next rest heqRest =>
        injection hout with h1
        subst h1
        have hfields := buildRow_ok_fields h batch g row heqRow
        have ihspec := ih rest heqRest
        constructor
        · simp [hfields.1, ihspec.1]
        · intro r hr
          rcases List.mem_cons.mp hr with rfl | hr'
          · rw [hfields.1]; exact heqRow
          · exact ihspec.2 r hr'

theorem sortedKeys_nodup (h : Bool) (batch : List TgRecord) :
    (sortedKeys h batch).Nodup :=
  (List.perm_insertionSort _ _).nodup_iff.mpr (List.nodup_dedup _)

theorem sortedKeys_mem (h : Bool) (batch : List TgRecord) (g : Int) :
    g ∈ sortedKeys h batch ↔ g ∈ batch.filterMap (aggKey h) := by
  rw [sortedKeys, (List.perm_insertionSort _ _).mem_iff, List.mem_dedup]

theorem sortedKeys_chain_lt (h : Bool) (batch : List TgRecord) :
    List.Chain' (· < ·) (sortedKeys h batch) := by
  have hs : (sortedKeys h batch).Pairwise (· ≤ ·) :=
    List.sorted_insertionSort _ _
  have hn : (sortedKeys h batch).Pairwise (· ≠ ·) := sortedKeys_nodup h batch
  have hlt : (sortedKeys h batch).Pairwise (· < ·) :=
    (List.pairwise_and_iff.mpr ⟨hs, hn⟩).imp fun hab => lt_of_le_of_ne hab.1 hab.2
  exact hlt.chain'

/-! ## C10: output order of aggregation -/

/-- C10: aggregated rows come out ordered by strictly ascending `group_id`
(the pandas `groupby` sort default), not in first-encounter order: on a batch
whose keys are first seen in the order `[2, 1]`, the output keys are
`[1, 2]`. -/
theorem aggregate_output_sorted_by_group_id :
    (∀ (h : Bool) (batch : List TgRecord) (out : List AggRow),
      aggregate_group_messages h batch = .ok out →
      List.Chain' (· < ·) (out.map (·.group_id))) ∧
    Except.map (fun out => out.map (·.group_id))
      (aggregate_group_messages true
        [⟨some 10, some "b", none, none, some "d2", none, none, some 2⟩,
         ⟨some 11, some "a", none, none, some "d1", none, none, some 1⟩]) =
      .ok [1, 2] ∧
    ([⟨some 10, some "b", none, none, some "d2", none, none, some 2⟩,
      ⟨some 11, some "a", none, none, some "d1", none, none, some 1⟩] :
        List TgRecord).filterMap (aggKey true) = [2, 1] ∧
    ([1, 2] : List Int) ≠ [2, 1] := by
  refine ⟨fun h batch out hout => ?_, rfl, rfl, by decide⟩
  rw [aggregate_group_messages] at hout
  rw [(buildRows_ok_spec h batch _ out hout).1]
  exact sortedKeys_chain_lt h batch

/-- C10 witness: the sortedness clause instantiated on the concrete batch. -/
theorem aggregate_output_sorted_by_group_id_witness :
    List.Chain' (· < ·)
      (([⟨1, [some 11], some "a", none, none, some "d1", [], []⟩,
         ⟨2, [some 10], some "b", none, none, some "d2", [], []⟩] :
           List AggRow).map (·.group_id)) :=
  aggregate_output_sorted_by_group_id.1 true
    [⟨some 10, some "b", none, none, some "d2", none, none, some 2⟩,
     ⟨some 11, some "a", none, none, some "d1", none, none, some 1⟩]
    [⟨1, [some 11], some "a", none, none, some "d1", [], []⟩,
     ⟨2, [some 10], some "b", none, none, some "d2", [], []⟩] rfl

/-! ## C5: aggregation cardinality and media reduction -/

/-- C5 counterexample: a group whose only media path is the empty string
`""`.  The claim's reducer ("non-null and not `No Media`") keeps `""`, but
the code's truthiness test (`if path`) drops it: the aggregated `media_path`
is `[]`, not `[""]`. -/
theorem aggregate_media_empty_string_cex :
    Except.map (fun out => out.map (·.media_path))
      (aggregate_group_messages true
        [⟨some 1, some "t", none, none, some "d", some "", none, some 7⟩]) =
      .ok [[]] ∧
    ([[]] : List (List String)) ≠ [[""]] :=
  ⟨rfl, by decide⟩

/-- C5 amended: one aggregated row per distinct non-null group key, keys
covering every record whose key is non-null (null keys are dropped by
`groupby`), and each row's `media_path` collects the group's truthy
(non-null, non-empty) paths that differ from `"No Media"`, in encounter
order. -/
theorem aggregate_one_row_per_group (h : Bool) (batch : List TgRecord)
    (out : List AggRow) (hout : aggregate_group_messages h batch = .ok out) :
    out.map (·.group_id) = sortedKeys h batch ∧
    (out.map (·.group_id)).Nodup ∧
    (∀ r ∈ batch, ∀ g : Int, aggKey h r = some g → g ∈ out.map (·.group_id)) ∧
    (∀ row ∈ out, row.media_path =
      mediaAgg ((groupMembers h batch row.group_id).map (·.media_path))) := by
  rw [aggregate_group_messages] at hout
  obtain ⟨hmap, hrows⟩ := buildRows_ok_spec h batch _ out hout
  refine ⟨hmap, ?_, ?_, ?_⟩
  · rw [hmap]
    exact sortedKeys_nodup h batch
  · intro r hr g hg
    rw [hmap, sortedKeys_mem]
    exact List.mem_filterMap.mpr ⟨r, hr, hg⟩
  · intro row hrow
    exact (buildRow_ok_fields h batch row.group_id row (hrows row hrow)).2.1

/-- C5 witness: the spec's grouping scenario — three records sharing group 7
with media paths `["a.jpg", "No Media", "b.jpg"]` aggregate to
`["a.jpg", "b.jpg"]`. -/
theorem aggregate_one_row_per_group_witness :
    mediaAgg ((groupMembers true
      [⟨some 1, some "t1", none, none, some "d", some "a.jpg", none, some 7⟩,
       ⟨some 2, some "t2", none, none, some "d", some "No Media", none, some 7⟩,
       ⟨some 3, some "t3", none, none, some "d", some "b.jpg", none, some 7⟩]
      7).map (·.media_path)) = ["a.jpg", "b.jpg"] ∧
    (⟨7, [some 1, some 2, some 3], some "t1", none, none, some "d",
      ["a.jpg", "b.jpg"], []⟩ : AggRow).media_path =
      mediaAgg ((groupMembers true
        [⟨some 1, some "t1", none, none, some "d", some "a.jpg", none, some 7⟩,
         ⟨some 2, some "t2", none, none, some "d", some "No Media", none, some 7⟩,
         ⟨some 3, some "t3", none, none, some "d", some "b.jpg", none, some 7⟩]
        7).map (·.media_path)) :=
  ⟨by decide,
   (aggregate_one_row_per_group true
      [⟨some 1, some "t1", none, none, some "d", some "a.jpg", none, some 7⟩,
       ⟨some 2, some "t2", none, none, some "d", some "No Media", none, some 7⟩,
       ⟨some 3, some "t3", none, none, some "d", some "b.jpg", none, some 7⟩]
      [⟨7, [some 1, some 2, some 3], some "t1", none, none, some "d",
        ["a.jpg", "b.jpg"], []⟩] rfl).2.2.2
    ⟨7, [some 1, some 2, some 3], some "t1", none, none, some "d",
      ["a.jpg", "b.jpg"], []⟩ (by decide)⟩

/-! ## C6: the links reducer -/

theorem pySumLinks_map_some (xs : List (List String)) :
    pySumLinks (xs.map some) = .ok xs.flatten := by
  suffices h : ∀ acc : List String,
      List.foldlM
        (fun acc o =>
          match o with
          | some l => Except.ok (acc ++ l)
          | none => Except.error PyErr.typeError)
        acc (xs.map some) = .ok (acc ++ xs.flatten) by
    simpa [pySumLinks] using h []
  induction xs with
  | nil => intro acc; simp [pure, Except.pure]
  | cons l ls ih =>
    intro acc
    simp only [List.map_cons, List.foldlM_cons, List.flatten_cons]
    rw [show ∀ b : List String,
        (Except.ok b : Except PyErr (List String)) >>= (fun b' =>
          List.foldlM
            (fun acc o =>
              match o with
              | some l => Except.ok (acc ++ l)
              | none => Except.error PyErr.typeError)
            b' (ls.map some)) =
        List.foldlM
          (fun acc o =>
            match o with
            | some l => Except.ok (acc ++ l)
            | none => Except.error PyErr.typeError)
          b (ls.map some) from fun _ => rfl]
    rw [ih (acc ++ l), List.append_assoc]

theorem pySumLinks_error_of_none :
    ∀ xs : List (Option (List String)), none ∈ xs →
      ∀ acc : List String,
        List.foldlM
          (fun acc o =>
            match o with
            | some l => Except.ok (acc ++ l)
            | none => Except.error PyErr.typeError)
          acc xs = .error .typeError := by
  intro xs
  induction xs with
  | nil => intro hmem; cases hmem
  | cons a t ih =>
    intro hmem acc
    cases a with
    | none => rfl
    | some l =>
      have ht : none ∈ t := by
        rcases List.mem_cons.mp hmem with h | h
        · exact absurd h.symm (by simp)
        · exact h
      simp only [List.foldlM_cons]
      exact ih ht (acc ++ l)

/-- C6 counterexample: a group whose first record's `links` is a list and
whose second is null.  The claim says the aggregated `links` is the flattened
concatenation, but `sum(x, [])` on the mixed column raises `TypeError`,
aborting the whole aggregation. -/
theorem aggregate_links_mixed_raises_cex :
    aggregate_group_messages true
      [⟨some 1, some "t", none, none, some "d", none, some ["http://a"], some 7⟩,
       ⟨some 2, some "u", none, none, some "d", none, none, some 7⟩] =
      .error .typeError := rfl

/-- C6 amended: when every member's `links` value is a list, the aggregated
`links` is their concatenation in encounter order; when the first member's
value is not a list the reducer returns `[]` without looking at the rest;
when the first is a list but a later member's value is not, aggregation
raises `TypeError`.  Every aggregated row's `links` is the reducer applied
to its group's column. -/
theorem links_reducer_flattens :
    (∀ xs : List (List String), xs ≠ [] →
      linksAgg (xs.map some) = .ok xs.flatten) ∧
    (∀ rest : List (Option (List String)), linksAgg (none :: rest) = .ok []) ∧
    (∀ (l : List String) (rest : List (Option (List String))), none ∈ rest →
      linksAgg (some l :: rest) = .error .typeError) ∧
    (∀ (h : Bool) (batch : List TgRecord) (out : List AggRow),
      aggregate_group_messages h batch = .ok out →
      ∀ row ∈ out,
        linksAgg ((groupMembers h batch row.group_id).map (·.links)) =
          .ok row.links) := by
  refine ⟨fun xs hxs => ?_, fun rest => rfl, fun l rest hmem => ?_,
    fun h batch out hout row hrow => ?_⟩
  · cases xs with
    | nil => exact absurd rfl hxs
    | cons x xs' =>
      simp only [List.map_cons, linksAgg]
      rw [show (some x :: xs'.map some : List (Option (List String))) =
        (x :: xs').map some from rfl]
      exact pySumLinks_map_some (x :: xs')
  · simp only [linksAgg, pySumLinks, List.foldlM_cons]
    exact pySumLinks_error_of_none rest hmem ([] ++ l)
  · rw [aggregate_group_messages] at hout
    obtain ⟨hmap, hrows⟩ := buildRows_ok_spec h batch _ out hout
    exact (buildRow_ok_fields h batch row.group_id row (hrows row hrow)).2.2

/-- C6 witness: concrete instantiations of the all-lists and non-list-first
clauses. -/
theorem links_reducer_flattens_witness :
    linksAgg ([["a"], ["b", "c"]].map some) = .ok [["a"], ["b", "c"]].flatten ∧
    linksAgg (none :: [some ["x"]]) = .ok [] :=
  ⟨links_reducer_flattens.1 _ (by decide), links_reducer_flattens.2.1 _⟩

/-! ## C1 helper lemmas: character classes -/

theorem keep_not_emoji (c : Char) (h : keepChar c = true) : isEmojiChar c = false := by
  have h3 : isAmharicChar c = true ∨ isAsciiDigit c = true ∨ isPySpace c = true := by
    simpa [keepChar, Bool.or_assoc] using h
  rcases h3 with ham | hdig | hsp
  · have hb := of_decide_eq_true ham
    simp only [isEmojiChar, decide_eq_false_iff_not]
    omega
  · have hb := of_decide_eq_true hdig
    simp only [isEmojiChar, decide_eq_false_iff_not]
    omega
  · have hb : c ∈ pySpaceChars := of_decide_eq_true hsp
    have hall : ∀ x ∈ pySpaceChars, isEmojiChar x = false := by decide
    exact hall c hb

theorem keep_not_hw (c : Char) (h : keepChar c = true) : c ≠ 'h' ∧ c ≠ 'w' := by
  refine ⟨fun hc => ?_, fun hc => ?_⟩
  · subst hc; exact absurd h (by decide)
  · subst hc; exact absurd h (by decide)

/-! ## C1 helper lemmas: the diacritics fold -/

theorem foldl_replace_eq_map (L : List (Char × Char)) (cs : List Char) :
    L.foldl replaceChar cs =
      cs.map fun c => L.foldl (fun a p => if a = p.1 then p.2 else a) c := by
  induction L generalizing cs with
  | nil => simp
  | cons p L ih =>
    simp only [List.foldl_cons]
    rw [ih (replaceChar cs p)]
    simp [replaceChar, List.map_map, Function.comp]

theorem normalize_amharic_eq_map (cs : List Char) :
    normalize_amharic_text cs = cs.map foldDiacritics := by
  rw [normalize_amharic_text, foldl_replace_eq_map]
  rfl

theorem foldl_step_cases (L : List (Char × Char)) (c : Char) :
    L.foldl (fun a p => if a = p.1 then p.2 else a) c = c ∨
      ∃ p ∈ L, L.foldl (fun a p => if a = p.1 then p.2 else a) c = p.2 := by
  induction L generalizing c with
  | nil => exact Or.inl rfl
  | cons p L ih =>
    simp only [List.foldl_cons]
    by_cases hc : c = p.1
    · simp only [hc, if_pos rfl]
      rcases ih p.2 with h | ⟨q, hq, h⟩
      · exact Or.inr ⟨p, List.mem_cons_self p L, h⟩
      · exact Or.inr ⟨q, List.mem_cons_of_mem p hq, h⟩
    · simp only [if_neg hc]
      rcases ih c with h | ⟨q, hq, h⟩
      · exact Or.inl h
      · exact Or.inr ⟨q, List.mem_cons_of_mem p hq, h⟩

theorem foldl_step_not_key (L : List (Char × Char)) (c : Char)
    (h : ∀ p ∈ L, c ≠ p.1) :
    L.foldl (fun a p => if a = p.1 then p.2 else a) c = c := by
  induction L with
  | nil => rfl
  | cons p L ih =>
    simp only [List.foldl_cons, if_neg (h p (List.mem_cons_self p L))]
    exact ih fun q hq => h q (List.mem_cons_of_mem p hq)

theorem diacritics_vals_not_keys :
    ∀ p ∈ amharicDiacriticsMap, ∀ q ∈ amharicDiacriticsMap, p.2 ≠ q.1 := by
  decide

theorem foldDiacritics_cases (c : Char) :
    foldDiacritics c = c ∨
      ∃ p ∈ amharicDiacriticsMap, foldDiacritics c = p.2 :=
  foldl_step_cases amharicDiacriticsMap c

theorem foldDiacritics_idem (c : Char) :
    foldDiacritics (foldDiacritics c) = foldDiacritics c := by
  rcases foldDiacritics_cases c with h | ⟨p, hp, h⟩
  · rw [h]; exact h
  · rw [h]
    exact foldl_step_not_key amharicDiacriticsMap p.2
      fun q hq => diacritics_vals_not_keys p hp q hq

/-! ## C1 helper lemmas: run collapsing -/

theorem rrc_head (c : Char) (t : List Char) :
    (remove_repeated_characters (c :: t)).head? = some c := by
  induction t generalizing c with
  | nil => rfl
  | cons d rest ih =>
    rw [remove_repeated_characters]
    by_cases h : c = d ∧ c ≠ '\n'
    · rw [if_pos h, ih d, h.1]
    · rw [if_neg h]
      rfl

theorem rrc_chain (l : List Char) :
    List.Chain' (fun a b => a = b → a = '\n') (remove_repeated_characters l) := by
  induction l with
  | nil => simp [remove_repeated_characters]
  | cons c t ih =>
    cases t with
    | nil => simp [remove_repeated_characters]
    | cons d rest =>
      rw [remove_repeated_characters]
      by_cases h : c = d ∧ c ≠ '\n'
      · rw [if_pos h]
        exact ih
      · rw [if_neg h]
        refine List.chain'_cons'.mpr ⟨fun y hy => ?_, ih⟩
        rw [rrc_head d rest] at hy
        intro hcy
        rcases not_and_or.mp h with h1 | h1
        · exact absurd (hcy.trans (Option.some_injective _ hy).symm) h1
        · exact not_not.mp h1

theorem rrc_mem (l : List Char) : ∀ c ∈ remove_repeated_characters l, c ∈ l := by
  induction l with
  | nil => simp [remove_repeated_characters]
  | cons c t ih =>
    cases t with
    | nil => simp [remove_repeated_characters]
    | cons d rest =>
      rw [remove_repeated_characters]
      by_cases h : c = d ∧ c ≠ '\n'
      · rw [if_pos h]
        intro x hx
        exact List.mem_cons_of_mem c (ih x hx)
      · rw [if_neg h]
        intro x hx
        rcases List.mem_cons.mp hx with rfl | hx'
        · exact List.mem_cons_self x _
        · exact List.mem_cons_of_mem c (ih x hx')

theorem rrc_eq_self (l : List Char) (h : List.Chain' (· ≠ ·) l) :
    remove_repeated_characters l = l := by
  induction l with
  | nil => rfl
  | cons c t ih =>
    cases t with
    | nil => rfl
    | cons d rest =>
      rw [remove_repeated_characters,
        if_neg (fun hcd => (List.chain'_cons.mp h).1 hcd.1)]
      rw [ih (List.chain'_cons.mp h).2]

/-! ## C1 helper lemmas: URL removal is inert on filtered text -/

theorem matchUrlR_none (c : Char) (t : List Char) (h1 : c ≠ 'h') (h2 : c ≠ 'w') :
    matchUrlR (c :: t) = none := by
  rw [matchUrlR.eq_def]
  split <;> simp_all

theorem removeUrlsF_inert (fuel : Nat) :
    ∀ cs : List Char, (∀ c ∈ cs, c ≠ 'h' ∧ c ≠ 'w') →
      removeUrlsF fuel cs = cs := by
  induction fuel with
  | zero => intro cs _; rfl
  | succ fuel ih =>
    intro cs hcs
    cases cs with
    | nil => rfl
    | cons c t =>
      have hc := hcs c (List.mem_cons_self c t)
      rw [removeUrlsF, matchUrlR_none c t hc.1 hc.2]
      exact congrArg (c :: ·)
        (ih t fun x hx => hcs x (List.mem_cons_of_mem c hx))

theorem remove_urls_inert (cs : List Char)
    (hcs : ∀ c ∈ cs, c ≠ 'h' ∧ c ≠ 'w') : remove_urls cs = cs :=
  removeUrlsF_inert cs.length cs hcs

/-! ## C1 helper lemmas: splitting and joining on whitespace -/

theorem pySplitAux_token_facts :
    ∀ (cs acc : List Char), (∀ c ∈ acc, isPySpace c = false) →
      ∀ t ∈ pySplitAux cs acc,
        t ≠ [] ∧ ∀ c ∈ t, isPySpace c = false ∧ (c ∈ cs ∨ c ∈ acc) := by
  intro cs
  induction cs with
  | nil =>
    intro acc hacc t ht
    simp only [pySplitAux] at ht
    by_cases he : acc.isEmpty
    · rw [if_pos he] at ht
      simp at ht
    · rw [if_neg he] at ht
      rcases List.mem_singleton.mp ht with rfl
      refine ⟨fun hrev => ?_, fun c hc => ?_⟩
      · rw [List.isEmpty_iff] at he
        exact he (List.reverse_eq_nil_iff.mp hrev)
      · have hca : c ∈ acc := List.mem_reverse.mp hc
        exact ⟨hacc c hca, Or.inr hca⟩
  | cons c0 rest ih =>
    intro acc hacc t ht
    simp only [pySplitAux] at ht
    by_cases hsp : isPySpace c0 = true
    · rw [if_pos hsp] at ht
      by_cases he : acc.isEmpty
      · rw [if_pos he] at ht
        have hfacts := ih [] (by simp) t ht
        refine ⟨hfacts.1, fun c hc => ⟨(hfacts.2 c hc).1, ?_⟩⟩
        rcases (hfacts.2 c hc).2 with h | h
        · exact Or.inl (List.mem_cons_of_mem c0 h)
        · simp at h
      · rw [if_neg he] at ht
        rcases List.mem_cons.mp ht with rfl | ht'
        · refine ⟨fun hrev => ?_, fun c hc => ?_⟩
          · rw [List.isEmpty_iff] at he
            exact he (List.reverse_eq_nil_iff.mp hrev)
          · have hca : c ∈ acc := List.mem_reverse.mp hc
            exact ⟨hacc c hca, Or.inr hca⟩
        · have hfacts := ih [] (by simp) t ht'
          refine ⟨hfacts.1, fun c hc => ⟨(hfacts.2 c hc).1, ?_⟩⟩
          rcases (hfacts.2 c hc).2 with h | h
          · exact Or.inl (List.mem_cons_of_mem c0 h)
          · simp at h
    · rw [if_neg hsp] at ht
      have hacc' : ∀ c ∈ (c0 :: acc), isPySpace c = false := by
        intro c hc
        rcases List.mem_cons.mp hc with rfl | hc'
        · exact Bool.eq_false_iff.mpr hsp
        · exact hacc c hc'
      have hfacts := ih (c0 :: acc) hacc' t ht
      refine ⟨hfacts.1, fun c hc => ⟨(hfacts.2 c hc).1, ?_⟩⟩
      rcases (hfacts.2 c hc).2 with h | h
      · exact Or.inl (List.mem_cons_of_mem c0 h)
      · rcases List.mem_cons.mp h with rfl | h'
        · exact Or.inl (List.mem_cons_self c rest)
        · exact Or.inr h'

theorem pySplitAux_chain (R : Char → Char → Prop) :
    ∀ (cs acc : List Char), List.Chain' R (acc.reverse ++ cs) →
      ∀ t ∈ pySplitAux cs acc, List.Chain' R t := by
  intro cs
  induction cs with
  | nil =>
    intro acc hch t ht
    simp only [pySplitAux] at ht
    by_cases he : acc.isEmpty
    · rw [if_pos he] at ht
      simp at ht
    · rw [if_neg he] at ht
      rcases List.mem_singleton.mp ht with rfl
      rw [List.append_nil] at hch
      exact hch
  | cons c0 rest ih =>
    intro acc hch t ht
    simp only [pySplitAux] at ht
    have hparts := List.chain'_append.mp hch
    by_cases hsp : isPySpace c0 = true
    · rw [if_pos hsp] at ht
      have hrest : List.Chain' R ([].reverse ++ rest) := by
        simpa using hparts.2.1.tail
      by_cases he : acc.isEmpty
      · rw [if_pos he] at ht
        exact ih [] hrest t ht
      · rw [if_neg he] at ht
        rcases List.mem_cons.mp ht with rfl | ht'
        · exact hparts.1
        · exact ih [] hrest t ht'
    · rw [if_neg hsp] at ht
      have hch' : List.Chain' R ((c0 :: acc).reverse ++ rest) := by
        simpa [List.append_assoc] using hch
      exact ih (c0 :: acc) hch' t ht

theorem chain_norun_to_ne :
    ∀ t : List Char, List.Chain' (fun a b => a = b → a = '\n') t →
      (∀ c ∈ t, isPySpace c = false) → List.Chain' (· ≠ ·) t := by
  intro t
  induction t with
  | nil => intro _ _; simp
  | cons a t' ih =>
    intro hch hsp
    obtain ⟨hhead, htail⟩ := List.chain'_cons'.mp hch
    refine List.chain'_cons'.mpr ⟨fun y hy hay => ?_, ?_⟩
    · have ha : a = '\n' := hhead y hy hay
      have : isPySpace a = false := hsp a (List.mem_cons_self a t')
      rw [ha] at this
      exact absurd this (by decide)
    · exact ih htail fun c hc => hsp c (List.mem_cons_of_mem a hc)

theorem pySplitAux_word :
    ∀ (w rest acc : List Char), (∀ c ∈ w, isPySpace c = false) →
      pySplitAux (w ++ rest) acc = pySplitAux rest (w.reverse ++ acc) := by
  intro w
  induction w with
  | nil => intro rest acc _; simp
  | cons c w' ih =>
    intro rest acc hw
    have hc : isPySpace c = false := hw c (List.mem_cons_self c w')
    simp only [List.cons_append, pySplitAux]
    rw [if_neg (by simp [hc])]
    simp only [List.append_eq]
    rw [ih rest (c :: acc) fun x hx => hw x (List.mem_cons_of_mem c hx)]
    congr 1
    simp [List.append_assoc]

theorem joinSep_cons_cons (w w' : List Char) (ws : List (List Char)) :
    joinSep [' '] (w :: w' :: ws) = w ++ (' ' :: joinSep [' '] (w' :: ws)) := by
  show w ++ [' '] ++ joinSep [' '] (w' :: ws) = w ++ (' ' :: joinSep [' '] (w' :: ws))
  simp [List.append_assoc]

theorem pySplit_joinSep :
    ∀ ws : List (List Char),
      (∀ w ∈ ws, w ≠ [] ∧ ∀ c ∈ w, isPySpace c = false) →
      pySplit (joinSep [' '] ws) = ws := by
  intro ws
  induction ws with
  | nil => intro _; rfl
  | cons w ws ih =>
    intro hws
    have hw := hws w (List.mem_cons_self w ws)
    cases ws with
    | nil =>
      show pySplitAux (joinSep [' '] [w]) [] = [w]
      have hjw : joinSep [' '] [w] = w ++ [] := by simp [joinSep]
      rw [hjw, pySplitAux_word w [] [] hw.2]
      simp only [pySplitAux, List.append_nil]
      rw [if_neg (by simp [List.isEmpty_iff, hw.1]), List.reverse_reverse]
    | cons w' ws' =>
      show pySplitAux (joinSep [' '] (w :: w' :: ws')) [] = w :: w' :: ws'
      rw [joinSep_cons_cons, pySplitAux_word w _ [] hw.2]
      simp only [pySplitAux, List.append_nil]
      rw [if_pos (by decide : isPySpace ' ' = true),
        if_neg (by simp [List.isEmpty_iff, hw.1]), List.reverse_reverse]
      exact congrArg (w :: ·) (ih fun x hx => hws x (List.mem_cons_of_mem w hx))

theorem joinSep_mem :
    ∀ (ws : List (List Char)) (c : Char), c ∈ joinSep [' '] ws →
      c = ' ' ∨ ∃ w ∈ ws, c ∈ w := by
  intro ws
  induction ws with
  | nil => intro c hc; simp [joinSep] at hc
  | cons w ws ih =>
    intro c hc
    cases ws with
    | nil =>
      simp only [joinSep] at hc
      exact Or.inr ⟨w, List.mem_cons_self w [], hc⟩
    | cons w' ws' =>
      rw [joinSep_cons_cons] at hc
      rcases List.mem_append.mp hc with hcw | hctail
      · exact Or.inr ⟨w, List.mem_cons_self w _, hcw⟩
      · rcases List.mem_cons.mp hctail with rfl | hcj
        · exact Or.inl rfl
        · rcases ih c hcj with h | ⟨w'', hw'', hcw''⟩
          · exact Or.inl h
          · exact Or.inr ⟨w'', List.mem_cons_of_mem w hw'', hcw''⟩

theorem joinSep_head (w : List Char) (ws : List (List Char)) (hw : w ≠ []) :
    (joinSep [' '] (w :: ws)).head? = w.head? := by
  cases ws with
  | nil => rfl
  | cons w' ws' =>
    rw [joinSep_cons_cons]
    cases w with
    | nil => exact absurd rfl hw
    | cons c t => rfl

theorem joinSep_ne_nil (w : List Char) (ws : List (List Char)) (hw : w ≠ []) :
    joinSep [' '] (w :: ws) ≠ [] := by
  intro hj
  have := joinSep_head w ws hw
  rw [hj] at this
  rw [List.head?_eq_none_iff.mpr rfl] at this
  exact hw (List.head?_eq_none_iff.mp this.symm)

theorem joinSep_getLast :
    ∀ ws : List (List Char),
      (∀ w ∈ ws, w ≠ [] ∧ ∀ c ∈ w, isPySpace c = false) →
      ∀ y ∈ (joinSep [' '] ws).getLast?, isPySpace y = false := by
  intro ws
  induction ws with
  | nil => intro _ y hy; simp [joinSep] at hy
  | cons w ws ih =>
    intro hws y hy
    have hw := hws w (List.mem_cons_self w ws)
    cases ws with
    | nil =>
      simp only [joinSep] at hy
      rcases List.mem_getLast?_eq_getLast hy with ⟨hne, rfl⟩
      exact hw.2 _ (List.getLast_mem hne)
    | cons w' ws' =>
      have hws' : ∀ x ∈ w' :: ws', x ≠ [] ∧ ∀ c ∈ x, isPySpace c = false :=
        fun x hx => hws x (List.mem_cons_of_mem w hx)
      have hJne : joinSep [' '] (w' :: ws') ≠ [] :=
        joinSep_ne_nil w' ws' (hws' w' (List.mem_cons_self w' ws')).1
      rw [joinSep_cons_cons, List.getLast?_append] at hy
      have hlast : (' ' :: joinSep [' '] (w' :: ws')).getLast? =
          (joinSep [' '] (w' :: ws')).getLast? := by
        cases hJ : joinSep [' '] (w' :: ws') with
        | nil => exact absurd hJ hJne
        | cons a l => rw [List.getLast?_cons_cons]
      rw [hlast] at hy
      obtain ⟨z, hz⟩ := Option.isSome_iff_exists.mp
        (List.getLast?_isSome.mpr hJne)
      rw [hz] at hy
      simp only [Option.or, Option.mem_def, Option.some.injEq] at hy
      subst hy
      exact ih hws' z (by rw [Option.mem_def, hz])

theorem joinSep_chain :
    ∀ ws : List (List Char),
      (∀ w ∈ ws, w ≠ [] ∧ (∀ c ∈ w, isPySpace c = false) ∧
        List.Chain' (· ≠ ·) w) →
      List.Chain' (· ≠ ·) (joinSep [' '] ws) := by
  intro ws
  induction ws with
  | nil => intro _; simp [joinSep]
  | cons w ws ih =>
    intro hws
    have hw := hws w (List.mem_cons_self w ws)
    cases ws with
    | nil =>
      simp only [joinSep]
      exact hw.2.2
    | cons w' ws' =>
      have hws' : ∀ x ∈ w' :: ws', x ≠ [] ∧ (∀ c ∈ x, isPySpace c = false) ∧
          List.Chain' (· ≠ ·) x :=
        fun x hx => hws x (List.mem_cons_of_mem w hx)
      have hw' := hws' w' (List.mem_cons_self w' ws')
      rw [joinSep_cons_cons]
      refine List.chain'_append.mpr ⟨hw.2.2, ?_, ?_⟩
      · refine List.chain'_cons'.mpr ⟨fun y hy => ?_, ih hws'⟩
        rw [joinSep_head w' ws' hw'.1] at hy
        have hyw : y ∈ w' := List.mem_of_mem_head? hy
        intro hsy
        have := hw'.2.1 y hyw
        rw [← hsy] at this
        exact absurd this (by decide)
      · intro x hx y hy
        rcases List.mem_getLast?_eq_getLast hx with ⟨hne, rfl⟩
        have hxw : w.getLast hne ∈ w := List.getLast_mem hne
        simp only [List.head?_cons, Option.mem_def, Option.some.injEq] at hy
        subst hy
        intro hxy
        have := hw.2.1 _ hxw
        rw [hxy] at this
        exact absurd this (by decide)

/-! ## C1 helper lemmas: stripping and space normalization -/

theorem pyStrip_inert (cs : List Char)
    (hh : ∀ y ∈ cs.head?, isPySpace y = false)
    (hl : ∀ y ∈ cs.getLast?, isPySpace y = false) : pyStrip cs = cs := by
  have h1 : cs.dropWhile isPySpace = cs := by
    cases cs with
    | nil => rfl
    | cons c t =>
      rw [List.dropWhile_cons, if_neg (by simp [hh c rfl])]
  rw [pyStrip, h1]
  have h2 : cs.reverse.dropWhile isPySpace = cs.reverse := by
    cases hrev : cs.reverse with
    | nil => rfl
    | cons c t =>
      have hlc : cs.getLast? = some c := by
        rw [← List.head?_reverse, hrev]
        rfl
      rw [List.dropWhile_cons, if_neg (by simp [hl c hlc])]
  rw [h2, List.reverse_reverse]

theorem normalize_spaces_join (cs : List Char) :
    normalize_spaces cs = joinSep [' '] (pySplit cs) := by
  have htok := pySplitAux_token_facts cs [] (by simp)
  rw [normalize_spaces]
  apply pyStrip_inert
  · intro y hy
    rw [pySplit] at hy
    cases hts : pySplitAux cs [] with
    | nil =>
      rw [hts] at hy
      simp [joinSep] at hy
    | cons w ws =>
      have hwmem : w ∈ pySplitAux cs [] := by
        rw [hts]; exact List.mem_cons_self w ws
      rw [hts, joinSep_head w ws (htok w hwmem).1] at hy
      have hyw : y ∈ w := List.mem_of_mem_head? hy
      exact ((htok w hwmem).2 y hyw).1
  · intro y hy
    have hgood : ∀ w ∈ pySplit cs, w ≠ [] ∧ ∀ c ∈ w, isPySpace c = false :=
      fun w hw => ⟨(htok w hw).1, fun c hc => ((htok w hw).2 c hc).1⟩
    exact joinSep_getLast (pySplit cs) hgood y hy

/-! ## C1: idempotence of the cleaning chain -/

theorem cleanChain_idem_aux (z2 : List Char)
    (hz2A : ∀ c ∈ z2, keepChar c = true)
    (hz2F : ∀ c ∈ z2, foldDiacritics c = c) :
    cleanChain (normalize_spaces (remove_urls (remove_repeated_characters
        (remove_emojis z2)))) =
      normalize_spaces (remove_urls (remove_repeated_characters
        (remove_emojis z2))) := by
  have hz3 : remove_emojis z2 = z2 := by
    apply List.filter_eq_self.mpr
    intro c hc
    simp [keep_not_emoji c (hz2A c hc)]
  rw [hz3]
  set z4 := remove_repeated_characters z2 with hz4def
  have hz4mem : ∀ c ∈ z4, c ∈ z2 := rrc_mem z2
  have hz4A : ∀ c ∈ z4, keepChar c = true := fun c hc => hz2A c (hz4mem c hc)
  have hz5 : remove_urls z4 = z4 :=
    remove_urls_inert z4 fun c hc => keep_not_hw c (hz4A c hc)
  have hchz4 : List.Chain' (fun a b => a = b → a = '\n') z4 := by
    rw [hz4def]
    exact rrc_chain z2
  have htok := pySplitAux_token_facts z4 [] (by simp)
  have htokgood : ∀ w ∈ pySplit z4, w ≠ [] ∧ ∀ c ∈ w, isPySpace c = false :=
    fun w hw => ⟨(htok w hw).1, fun c hc => ((htok w hw).2 c hc).1⟩
  have htokchain : ∀ w ∈ pySplit z4, List.Chain' (· ≠ ·) w := by
    intro w hw
    refine chain_norun_to_ne w ?_ fun c hc => ((htok w hw).2 c hc).1
    refine pySplitAux_chain _ z4 [] ?_ w hw
    simpa using hchz4
  have hjoin : normalize_spaces z4 = joinSep [' '] (pySplit z4) :=
    normalize_spaces_join z4
  set y := joinSep [' '] (pySplit z4) with hydef
  have hyA : ∀ c ∈ y, keepChar c = true := by
    intro c hc
    rcases joinSep_mem (pySplit z4) c hc with rfl | ⟨w, hw, hcw⟩
    · decide
    · rcases ((htok w hw).2 c hcw).2 with h | h
      · exact hz4A c h
      · simp at h
  have hyF : ∀ c ∈ y, foldDiacritics c = c := by
    intro c hc
    rcases joinSep_mem (pySplit z4) c hc with rfl | ⟨w, hw, hcw⟩
    · decide
    · rcases ((htok w hw).2 c hcw).2 with h | h
      · exact hz2F c (hz4mem c h)
      · simp at h
  have hyChain : List.Chain' (· ≠ ·) y :=
    joinSep_chain (pySplit z4) fun w hw =>
      ⟨(htok w hw).1, fun c hc => ((htok w hw).2 c hc).1, htokchain w hw⟩
  rw [hz5, hjoin]
  have e1 : normalize_amharic_text y = y := by
    rw [normalize_amharic_eq_map]
    have hmap : y.map foldDiacritics = y.map id :=
      List.map_congr_left fun c hc => hyF c hc
    rw [hmap, List.map_id]
  have e2 : remove_non_amharic_characters y = y :=
    List.filter_eq_self.mpr fun c hc => hyA c hc
  have e3 : remove_emojis y = y :=
    List.filter_eq_self.mpr fun c hc => by simp [keep_not_emoji c (hyA c hc)]
  have e4 : remove_repeated_characters y = y := rrc_eq_self y hyChain
  have e5 : remove_urls y = y :=
    remove_urls_inert y fun c hc => keep_not_hw c (hyA c hc)
  have e6 : normalize_spaces y = y := by
    rw [normalize_spaces_join y, hydef, pySplit_joinSep (pySplit z4) htokgood]
  rw [cleanChain, e1, e2, e3, e4, e5, e6]

theorem cleanChain_idem (cs : List Char) :
    cleanChain (cleanChain cs) = cleanChain cs := by
  have hkey : remove_non_amharic_characters (normalize_amharic_text cs) =
      List.filter keepChar (cs.map foldDiacritics) := by
    rw [remove_non_amharic_characters, normalize_amharic_eq_map]
  have hA : ∀ c ∈ List.filter keepChar (cs.map foldDiacritics),
      keepChar c = true := fun c hc => List.of_mem_filter hc
  have hF : ∀ c ∈ List.filter keepChar (cs.map foldDiacritics),
      foldDiacritics c = c := by
    intro c hc
    have hc2 : c ∈ cs.map foldDiacritics := List.mem_of_mem_filter hc
    rcases List.mem_map.mp hc2 with ⟨c0, _, rfl⟩
    exact foldDiacritics_idem c0
  have h := cleanChain_idem_aux
    (List.filter keepChar (cs.map foldDiacritics)) hA hF
  unfold cleanChain
  rw [hkey]
  exact h

/-- C1: `clean_text_pipeline` is idempotent — re-running the full
normalization chain on already-cleaned text is a no-op, for every string. -/
theorem clean_text_pipeline_idempotent (s : String) :
    clean_text_pipeline (clean_text_pipeline s) = clean_text_pipeline s := by
  simp only [clean_text_pipeline]
  by_cases h : s.data.isEmpty = true
  · rw [if_pos h]
    rfl
  · rw [if_neg h]
    generalize hgen : cleanChain s.data = t
    have hdata : (String.mk t).data = t := rfl
    rw [hdata]
    by_cases h2 : t.isEmpty = true
    · rw [if_pos h2]
      rw [List.isEmpty_iff] at h2
      rw [h2]
    · rw [if_neg h2, ← hgen, cleanChain_idem]

/-! ## Smoke tests of the embedding -/

example : remove_repeated_characters "aab".data = "ab".data := by decide
example : remove_repeated_characters "a\n\nb".data = "a\n\nb".data := by decide
example : normalize_spaces "  ሀ   ሁ ".data = "ሀ ሁ".data := by decide
example : remove_urls "ሀ http://x ሁ".data = "ሀ  ሁ".data := by decide
example : clean_text_pipeline "ሐሎ  ሠላም!!" = "ሀሎ ሰላም" := by decide
